import Mathlib

/-!
# Verification of the creativebot phrase-indexing and splicing core

Shallow embedding of `src/phrase_indexing.rs` and the generation routine of
`src/main.rs`. Rust strings (`str`) are modelled as `List Char`; byte offsets
and byte-based slicing are modelled explicitly through each character's UTF-8
size, and slicing at a position that is out of bounds or not a character
boundary — a panic in Rust — is modelled by `Option.none`. `HashMap` is
modelled as an association list looked up by key and `HashSet` as a
duplicate-free list; inserting an already-present element leaves the model
state unchanged, matching the observable semantics of the Rust collections.
A panicking operation (`unwrap` on `None`, sampling from an empty range) is
modelled by an `Option`-valued function returning `none`.
-/

/-! ## Byte-level string model -/

/-- The UTF-8 byte length of a Rust `&str`, i.e. `str::len`. -/
def byteLen (s : List Char) : Nat :=
  (s.map Char.utf8Size).sum

/-- Model of the Rust slice `&s[..n]` with `n` a byte offset: returns the
characters occupying the first `n` bytes, or `none` when `n` is out of
bounds or not a character boundary (which panics in Rust). -/
def strTakeBytes : List Char → Nat → Option (List Char)
  | _, 0 => some []
  | [], _ + 1 => none
  | c :: cs, n + 1 =>
    if c.utf8Size ≤ n + 1 then
      match strTakeBytes cs (n + 1 - c.utf8Size) with
      | some t => some (c :: t)
      | none => none
    else none

/-- Model of the Rust slice `&s[n..]` with `n` a byte offset: returns the
characters after the first `n` bytes, or `none` when `n` is out of bounds
or not a character boundary (which panics in Rust). -/
def strDropBytes : List Char → Nat → Option (List Char)
  | s, 0 => some s
  | [], _ + 1 => none
  | c :: cs, n + 1 =>
    if c.utf8Size ≤ n + 1 then strDropBytes cs (n + 1 - c.utf8Size) else none

/-! ## Normalization (`normalize_text_into_phrases`)

```rust
pub(crate) fn normalize_text_into_phrases(text: String) -> Vec<Phrase> {
    split_text_at_periods(&text)
        .map(|subtext| {
            let subtext = normalize_punctuation_to_whitespace(subtext);
            let subtext = normalize_extra_whitespaces(&subtext);
            let subtext = subtext.to_lowercase();
            Phrase(subtext)
        })
        .collect()
}
```
-/

/-- The `[[:punct:]]` POSIX class of the Rust `regex` crate: the 32 ASCII
punctuation characters. -/
def isAsciiPunct (c : Char) : Bool :=
  decide ((0x21 ≤ c.toNat ∧ c.toNat ≤ 0x2F) ∨ (0x3A ≤ c.toNat ∧ c.toNat ≤ 0x40) ∨
    (0x5B ≤ c.toNat ∧ c.toNat ≤ 0x60) ∨ (0x7B ≤ c.toNat ∧ c.toNat ≤ 0x7E))

/-- The Unicode `White_Space` property: Rust's `char::is_whitespace`, the
regex `\s` class, and the character set trimmed by `str::trim`. -/
def rustIsWhitespace (c : Char) : Bool :=
  decide ((0x09 ≤ c.toNat ∧ c.toNat ≤ 0x0D) ∨ c.toNat = 0x20 ∨ c.toNat = 0x85 ∨
    c.toNat = 0xA0 ∨ c.toNat = 0x1680 ∨ (0x2000 ≤ c.toNat ∧ c.toNat ≤ 0x200A) ∨
    c.toNat = 0x2028 ∨ c.toNat = 0x2029 ∨ c.toNat = 0x202F ∨ c.toNat = 0x205F ∨
    c.toNat = 0x3000)

/-- `text.split(&['.', ';'])`: split at every delimiter occurrence, keeping
empty segments (they are filtered afterwards). -/
def splitAtDelims : List Char → List (List Char)
  | [] => [[]]
  | c :: cs =>
    if c = '.' ∨ c = ';' then [] :: splitAtDelims cs
    else
      match splitAtDelims cs with
      | [] => [[c]]
      | seg :: rest => (c :: seg) :: rest

/-- `split_text_at_periods`: split at `.` and `;`, discarding empty
segments (`.filter(|s| !s.is_empty())`). -/
def split_text_at_periods (text : List Char) : List (List Char) :=
  (splitAtDelims text).filter (fun s => !s.isEmpty)

/-- `normalize_punctuation_to_whitespace`: `replace_all` of the single-char
pattern `[[:punct:]]` by one space replaces each punctuation character with
a space. -/
def normalize_punctuation_to_whitespace (text : List Char) : List Char :=
  text.map (fun c => if isAsciiPunct c then ' ' else c)

/-- `str::trim`: remove leading and trailing whitespace. -/
def trimWs (s : List Char) : List Char :=
  ((s.dropWhile rustIsWhitespace).reverse.dropWhile rustIsWhitespace).reverse

/-- `replace_all` of the regex `\s\s+` by one space: every maximal run of
two or more whitespace characters becomes a single space; a lone whitespace
character is left as it is. A whitespace character followed by another
whitespace character starts (or continues) a collapsed run, so it merges
with the run token produced for the rest; the first character of a maximal
run of length ≥ 2 contributes the single replacement space. -/
def collapseWs : List Char → List Char
  | [] => []
  | a :: rest =>
    if rustIsWhitespace a && ((rest.head?.map rustIsWhitespace).getD false) then
      ' ' :: (collapseWs rest).tail
    else
      a :: collapseWs rest

/-- `normalize_extra_whitespaces`: trim, then collapse whitespace runs. -/
def normalize_extra_whitespaces (text : List Char) : List Char :=
  collapseWs (trimWs text)

/-- The `Phrase` newtype around a normalized string. -/
structure Phrase where
  content : List Char
deriving DecidableEq, Repr

/-- `normalize_text_into_phrases`. Lowercasing models Rust's
`str::to_lowercase` character-wise via ASCII `Char.toLower`; every
character class this development quantifies over or evaluates on
(ASCII letters, digits, punctuation, whitespace, delimiters) is mapped
identically by Rust's Unicode lowercasing. -/
def normalize_text_into_phrases (text : List Char) : List Phrase :=
  (split_text_at_periods text).map (fun subtext =>
    let subtext := normalize_punctuation_to_whitespace subtext
    let subtext := normalize_extra_whitespaces subtext
    let subtext := subtext.map Char.toLower
    Phrase.mk subtext)

/-! ## The phrase index (`IndexedPhrases`)

```rust
pub(crate) struct IndexedPhrases {
    interned_texts: HashMap<String, usize>,
    indexed_texts: Vec<String>,
    indexed_phrases_by_word: HashMap<usize, HashSet<IndexedPhrase>>,
}
```
-/

/-- An occurrence stored in the inverted index: interned phrase id and the
byte position of the word inside the phrase. -/
structure IndexedPhrase where
  interned_phrase_index : Nat
  word_pos_in_phrase : Nat
deriving DecidableEq, Repr

/-- A borrowed view of an occurrence: the phrase text and the word's byte
position, as returned by `get_phrases_with_word_in_common`. -/
structure IndexedPhraseContent where
  phrase_content : List Char
  word_pos_in_phrase : Nat
deriving DecidableEq, Repr

/-- A word handle (`Word<'s>(&'s str)`). -/
structure Word where
  text : List Char
deriving DecidableEq, Repr

/-- The index state. `interned_texts` is the `HashMap<String, usize>` as an
association list, `indexed_texts` the id-to-text vector, and
`indexed_phrases_by_word` the `HashMap<usize, HashSet<IndexedPhrase>>` as an
association list of duplicate-free occurrence lists. -/
structure IndexedPhrases where
  interned_texts : List (List Char × Nat)
  indexed_texts : List (List Char)
  indexed_phrases_by_word : List (Nat × List IndexedPhrase)
deriving DecidableEq, Repr

/-- `IndexedPhrases::new()`. -/
def emptyIndexedPhrases : IndexedPhrases :=
  { interned_texts := [], indexed_texts := [], indexed_phrases_by_word := [] }

/-- `HashMap::get` on the interning table. -/
def lookupText : List (List Char × Nat) → List Char → Option Nat
  | [], _ => none
  | p :: rest, t => if p.1 = t then some p.2 else lookupText rest t

/-- `HashMap::get` on the inverted index. -/
def lookupIndex : List (Nat × List IndexedPhrase) → Nat → Option (List IndexedPhrase)
  | [], _ => none
  | e :: rest, w => if e.1 = w then some e.2 else lookupIndex rest w

/-- `HashMap::insert`-or-replace on the inverted index: replace the entry
for key `w` if present, otherwise add one. -/
def setEntry : List (Nat × List IndexedPhrase) → Nat → List IndexedPhrase →
    List (Nat × List IndexedPhrase)
  | [], w, v => [(w, v)]
  | e :: rest, w, v => if e.1 = w then (w, v) :: rest else e :: setEntry rest w v

/-- The occurrence set stored for word id `w` (empty if `w` is not a key). -/
def occsOf (s : IndexedPhrases) (w : Nat) : List IndexedPhrase :=
  (lookupIndex s.indexed_phrases_by_word w).getD []

/-- `intern_text`:
```rust
fn intern_text(&mut self, text: String) -> usize {
    *self.interned_texts.entry(text.clone()).or_insert_with(|| {
        let new_index = self.indexed_texts.len();
        self.indexed_texts.push(text);
        new_index
    })
}
```
-/
def intern_text (s : IndexedPhrases) (text : List Char) : Nat × IndexedPhrases :=
  match lookupText s.interned_texts text with
  | some i => (i, s)
  | none =>
    let new_index := s.indexed_texts.length
    (new_index,
      { s with
          interned_texts := (text, new_index) :: s.interned_texts,
          indexed_texts := s.indexed_texts ++ [text] })

/-- `link_phrase_to_word`: `entry(word_index).or_insert_with(HashSet::new)`
followed by `HashSet::insert`. Inserting an element that is already present
leaves a `HashSet` unchanged, so the model returns the state unchanged in
that case; otherwise the occurrence is added to the word's set. -/
def link_phrase_to_word (s : IndexedPhrases)
    (phrase_index word_index word_pos_in_phrase : Nat) : IndexedPhrases :=
  let occs := occsOf s word_index
  if IndexedPhrase.mk phrase_index word_pos_in_phrase ∈ occs then s
  else
    { s with
        indexed_phrases_by_word :=
          setEntry s.indexed_phrases_by_word word_index
            (IndexedPhrase.mk phrase_index word_pos_in_phrase :: occs) }

/-- Rust's `char::is_ascii_whitespace`: space, tab, newline, form feed,
carriage return. -/
def isAsciiWhitespace (c : Char) : Bool :=
  c = ' ' || c = '\t' || c = '\n' || c = Char.ofNat 0x0C || c = '\r'

/-- Accumulator-passing splitter for `str::split_ascii_whitespace`. -/
def splitAsciiWhitespaceAux : List Char → List Char → List (List Char)
  | [], acc => if acc.isEmpty then [] else [acc.reverse]
  | c :: cs, acc =>
    if isAsciiWhitespace c then
      if acc.isEmpty then splitAsciiWhitespaceAux cs []
      else acc.reverse :: splitAsciiWhitespaceAux cs []
    else splitAsciiWhitespaceAux cs (c :: acc)

/-- `str::split_ascii_whitespace`: the maximal runs of non-ASCII-whitespace
characters, in order. -/
def splitAsciiWhitespace (s : List Char) : List (List Char) :=
  splitAsciiWhitespaceAux s []

/-- `InsertionResult`. -/
structure InsertionResult where
  has_inserted_phrase : Bool
  word_indices_from_phrase : List Nat
deriving DecidableEq, Repr

/-- The `for word in phrase_content.split_ascii_whitespace()` loop of
`insert_phrase`: intern each word, link the phrase to it at the running
byte position, and advance the position by the word's byte length plus one
for the separating space. Returns the observed word ids in order together
with the final state. -/
def insertWordsLoop : IndexedPhrases → Nat → Nat → List (List Char) →
    List Nat × IndexedPhrases
  | s, _, _, [] => ([], s)
  | s, phrase_index, pos, word :: rest =>
    let r1 := intern_text s word
    let s2 := link_phrase_to_word r1.2 phrase_index r1.1 pos
    let r3 := insertWordsLoop s2 phrase_index (pos + byteLen word + 1) rest
    (r1.1 :: r3.1, r3.2)

/-- `insert_phrase`:
```rust
pub(crate) fn insert_phrase(&mut self, phrase: Phrase) -> InsertionResult {
    let phrase_content = String::from(phrase);
    if !phrase_content.contains(' ') {
        let interned_word_index = self.intern_text(phrase_content);
        return InsertionResult {
            has_inserted_phrase: false,
            word_indices_from_phrase: vec![WordIndex(interned_word_index)],
        };
    }
    let interned_phrase_index = self.intern_text(phrase_content.clone());
    ... loop ...
    InsertionResult { has_inserted_phrase: true, word_indices_from_phrase }
}
```
-/
def insert_phrase (s : IndexedPhrases) (phrase : Phrase) :
    InsertionResult × IndexedPhrases :=
  let phrase_content := phrase.content
  if ' ' ∈ phrase_content then
    let r1 := intern_text s phrase_content
    let r2 := insertWordsLoop r1.2 r1.1 0 (splitAsciiWhitespace phrase_content)
    ({ has_inserted_phrase := true, word_indices_from_phrase := r2.1 }, r2.2)
  else
    let r1 := intern_text s phrase_content
    ({ has_inserted_phrase := false,
       word_indices_from_phrase := [r1.1] }, r1.2)

/-- `get_common_words`: one `Word` per key of the inverted index, carrying
the key's interned text. -/
def get_common_words (s : IndexedPhrases) : List Word :=
  s.indexed_phrases_by_word.map (fun e => Word.mk (s.indexed_texts.getD e.1 []))

/-- `get_words_for_indices`: resolve each id to its text, preserving order
and multiplicity. (Rust's `Vec` indexing panics out of bounds; callers only
pass ids obtained from insertion results, which are in bounds.) -/
def get_words_for_indices (s : IndexedPhrases) (word_indices : List Nat) : List Word :=
  word_indices.map (fun wi => Word.mk (s.indexed_texts.getD wi []))

/-- `get_phrases_with_word_in_common`: look the word's text up in the
interning table and the resulting id up in the inverted index — both
`unwrap`ed in Rust, so a failing lookup is a panic, modelled by `none` —
then view each stored occurrence as (phrase text, byte position). -/
def get_phrases_with_word_in_common (s : IndexedPhrases) (word : Word) :
    Option (List IndexedPhraseContent) :=
  match lookupText s.interned_texts word.text with
  | none => none
  | some word_index =>
    match lookupIndex s.indexed_phrases_by_word word_index with
    | none => none
    | some occs =>
      some (occs.map (fun ip =>
        IndexedPhraseContent.mk
          (s.indexed_texts.getD ip.interned_phrase_index [])
          ip.word_pos_in_phrase))

/-- The byte offsets at which the words of a phrase begin, starting from
`start`: the first word begins at `start`, and each subsequent word at the
previous word's offset plus that word's byte length plus one. -/
def wordOffsets : List (List Char) → Nat → List Nat
  | [], _ => []
  | w :: ws, pos => pos :: wordOffsets ws (pos + byteLen w + 1)

/-- Well-formedness of an index state, established by `IndexedPhrases::new`
and preserved by `insert_phrase`: the interning table and the id-to-text
vector are mutually inverse, inverted-index keys are interned ids with
duplicate-free occurrence sets, every stored phrase id is interned, and no
index key is duplicated. -/
def WF (s : IndexedPhrases) : Prop :=
  (∀ p ∈ s.interned_texts,
      p.2 < s.indexed_texts.length ∧ s.indexed_texts.getD p.2 [] = p.1) ∧
  (∀ i, i < s.indexed_texts.length →
      lookupText s.interned_texts (s.indexed_texts.getD i []) = some i) ∧
  (∀ e ∈ s.indexed_phrases_by_word,
      e.1 < s.indexed_texts.length ∧ e.2.Nodup ∧
      ∀ occ ∈ e.2, occ.interned_phrase_index < s.indexed_texts.length) ∧
  (s.indexed_phrases_by_word.map Prod.fst).Nodup

instance (s : IndexedPhrases) : Decidable (WF s) := by
  unfold WF
  infer_instance

/-- Every occurrence list of the index is duplicate-free (`HashSet`
semantics). -/
def NodupOccs (s : IndexedPhrases) : Prop :=
  ∀ e ∈ s.indexed_phrases_by_word, e.2.Nodup

/-! ## The splicing routine (`concatenate_indexed_phrases`)

```rust
pub(crate) fn concatenate_indexed_phrases<'s>(
    mut first_phrase: IndexedPhraseContent<'s>,
    mut second_phrase: IndexedPhraseContent<'s>,
) -> String {
    if first_phrase.word_pos_in_phrase == 0
        && !second_phrase.phrase_content[second_phrase.word_pos_in_phrase..].contains(' ')
    {
        std::mem::swap(&mut first_phrase, &mut second_phrase);
    }

    let first_phrase_half = &first_phrase.phrase_content[..first_phrase.word_pos_in_phrase];
    let second_phrase_half = &second_phrase.phrase_content[second_phrase.word_pos_in_phrase..];

    format!("{}{}", first_phrase_half, second_phrase_half)
}
```
An invalid slice offset panics; the model returns `none` exactly in the
states where some slice executed by the Rust code panics. -/
def concatenate_indexed_phrases (first_phrase second_phrase : IndexedPhraseContent) :
    Option (List Char) := do
  let second_tail ← strDropBytes second_phrase.phrase_content second_phrase.word_pos_in_phrase
  let (first_phrase, second_phrase) :=
    if first_phrase.word_pos_in_phrase = 0 ∧ ¬ ' ' ∈ second_tail then
      (second_phrase, first_phrase)
    else
      (first_phrase, second_phrase)
  let first_phrase_half ←
    strTakeBytes first_phrase.phrase_content first_phrase.word_pos_in_phrase
  let second_phrase_half ←
    strDropBytes second_phrase.phrase_content second_phrase.word_pos_in_phrase
  pure (first_phrase_half ++ second_phrase_half)

/-! ## The response generator (`generate_phrase`, from `src/main.rs`)

Randomness is modelled by an explicit entropy stream: each sample consumes
the head of a list of naturals (`headD 0`, reduced modulo the range size).
`rng.gen_range(0..n)` with `n = 0` panics in Rust ("cannot sample empty
range"), and `slice::choose` returns `None` on an empty slice, which the
code `unwrap`s — both are modelled by `none`. -/

/-- `rng.gen_range(0..n)`: `none` models the empty-range panic. -/
def genRange (rng : List Nat) (n : Nat) : Option (Nat × List Nat) :=
  if n = 0 then none else some (rng.headD 0 % n, rng.tail)

/-- `generate_phrase`:
```rust
fn generate_phrase(indexed_phrases, word_indices_from_phrases, rng) -> String {
    let words = if word_indices_from_phrases.is_empty() {
        indexed_phrases.get_common_words().collect()
    } else {
        indexed_phrases.get_words_for_indices(&word_indices_from_phrases)
    };
    let word_index = rng.gen_range(0..words.len());
    let picked_word = words[word_index];
    let phrases = indexed_phrases.get_phrases_with_word_in_common(picked_word).collect();
    let first_phrase = phrases.choose(rng).unwrap();
    let second_phrase = phrases.choose(rng).unwrap();
    phrase_indexing::concatenate_indexed_phrases(*first_phrase, *second_phrase)
}
```
-/
def generate_phrase (indexed_phrases : IndexedPhrases)
    (word_indices_from_phrases : List Nat) (rng : List Nat) : Option (List Char) := do
  let words :=
    if word_indices_from_phrases.isEmpty then get_common_words indexed_phrases
    else get_words_for_indices indexed_phrases word_indices_from_phrases
  let (word_index, rng) ← genRange rng words.length
  let picked_word := words.getD word_index (Word.mk [])
  let phrases ← get_phrases_with_word_in_common indexed_phrases picked_word
  let (first_index, rng) ← genRange rng phrases.length
  let first_phrase := phrases.getD first_index (IndexedPhraseContent.mk [] 0)
  let (second_index, _rng) ← genRange rng phrases.length
  let second_phrase := phrases.getD second_index (IndexedPhraseContent.mk [] 0)
  concatenate_indexed_phrases first_phrase second_phrase

/-! ## Basic lemmas about the byte-level string model -/

theorem strDropBytes_zero (s : List Char) : strDropBytes s 0 = some s := by
  cases s <;> rfl

/-- The two halves of a byte-offset split reassemble to the original string. -/
theorem strTakeBytes_append_strDropBytes :
    ∀ (s : List Char) (n : Nat) (t d : List Char),
      strTakeBytes s n = some t → strDropBytes s n = some d → t ++ d = s := by
  intro s
  induction s with
  | nil =>
    intro n t d ht hd
    cases n with
    | zero =>
      simp [strTakeBytes, strDropBytes] at ht hd
      simp [ht, hd]
    | succ m => simp [strTakeBytes] at ht
  | cons c cs ih =>
    intro n t d ht hd
    cases n with
    | zero =>
      simp [strTakeBytes, strDropBytes] at ht hd
      simp [← ht, ← hd]
    | succ m =>
      simp only [strTakeBytes, strDropBytes] at ht hd
      by_cases hsz : c.utf8Size ≤ m + 1
      · rw [if_pos hsz] at ht hd
        cases hrec : strTakeBytes cs (m + 1 - c.utf8Size) with
        | none => rw [hrec] at ht; exact absurd ht (by simp)
        | some t' =>
          rw [hrec] at ht
          simp at ht
          subst ht
          have := ih (m + 1 - c.utf8Size) t' d hrec hd
          simp [← this]
      · rw [if_neg hsz] at ht
        exact absurd ht (by simp)

/-! ## Claims C4, C5, C10: the splicing rule -/

/-- C4: For every pair of occurrences with valid in-bounds offsets, when the
tie-break condition does not hold (`offsetA ≠ 0`, or the suffix of `textB`
from `offsetB` contains a space), splicing returns exactly the characters of
`textA` before `offsetA` concatenated with the characters of `textB` from
`offsetB` to the end. -/
theorem splice_no_swap_is_prefix_append_suffix
    (fp sp : IndexedPhraseContent) (ta tb : List Char)
    (hta : strTakeBytes fp.phrase_content fp.word_pos_in_phrase = some ta)
    (htb : strDropBytes sp.phrase_content sp.word_pos_in_phrase = some tb)
    (hcond : fp.word_pos_in_phrase ≠ 0 ∨ ' ' ∈ tb) :
    concatenate_indexed_phrases fp sp = some (ta ++ tb) := by
  unfold concatenate_indexed_phrases
  rw [htb]
  have hswap : ¬ (fp.word_pos_in_phrase = 0 ∧ ¬ ' ' ∈ tb) := by
    rcases hcond with h | h
    · intro hc; exact h hc.1
    · intro hc; exact hc.2 h
  simp only [Option.bind_eq_bind, Option.some_bind, if_neg hswap]
  rw [hta, htb]
  rfl

/-- C4 witness: the two concrete splices of the supermarket example. -/
theorem splice_no_swap_is_prefix_append_suffix_witness :
    concatenate_indexed_phrases
        ⟨"i have to go to the supermarket".toList, 10⟩
        ⟨"does anyone need to go first".toList, 20⟩
      = some "i have to go first".toList ∧
    concatenate_indexed_phrases
        ⟨"does anyone need to go first".toList, 20⟩
        ⟨"i have to go to the supermarket".toList, 10⟩
      = some "does anyone need to go to the supermarket".toList := by
  constructor
  · exact splice_no_swap_is_prefix_append_suffix
      ⟨"i have to go to the supermarket".toList, 10⟩
      ⟨"does anyone need to go first".toList, 20⟩
      "i have to ".toList "go first".toList (by decide) (by decide)
      (Or.inl (by decide))
  · exact splice_no_swap_is_prefix_append_suffix
      ⟨"does anyone need to go first".toList, 20⟩
      ⟨"i have to go to the supermarket".toList, 10⟩
      "does anyone need to ".toList "go to the supermarket".toList
      (by decide) (by decide) (Or.inl (by decide))

/-- C5: if `offsetA = 0` and the suffix of `textB` from `offsetB` contains
no space, splicing swaps the occurrences: the result is `textB`'s characters
before `offsetB` followed by `textA`'s characters from `offsetA` on. -/
theorem splice_swap_rule
    (fp sp : IndexedPhraseContent) (tbInit tbTail : List Char)
    (hfz : fp.word_pos_in_phrase = 0)
    (htbi : strTakeBytes sp.phrase_content sp.word_pos_in_phrase = some tbInit)
    (htbt : strDropBytes sp.phrase_content sp.word_pos_in_phrase = some tbTail)
    (hns : ¬ ' ' ∈ tbTail) :
    concatenate_indexed_phrases fp sp = some (tbInit ++ fp.phrase_content) := by
  unfold concatenate_indexed_phrases
  rw [htbt]
  have hswap : fp.word_pos_in_phrase = 0 ∧ ¬ ' ' ∈ tbTail := ⟨hfz, hns⟩
  simp only [Option.bind_eq_bind, Option.some_bind, if_pos hswap]
  rw [htbi, hfz, strDropBytes_zero]
  rfl

/-- C5 witness: splicing `("go to the supermarket", 0)` with
`("does anyone need to go", 20)` yields the full spliced sentence, never the
bare word `"go"`. -/
theorem splice_swap_rule_witness :
    concatenate_indexed_phrases
        ⟨"go to the supermarket".toList, 0⟩
        ⟨"does anyone need to go".toList, 20⟩
      = some "does anyone need to go to the supermarket".toList ∧
    some "does anyone need to go to the supermarket".toList ≠ some "go".toList := by
  refine ⟨?_, by decide⟩
  exact splice_swap_rule
    ⟨"go to the supermarket".toList, 0⟩
    ⟨"does anyone need to go".toList, 20⟩
    "does anyone need to ".toList "go".toList rfl (by decide) (by decide)
    (by decide)

/-- C10: splicing an occurrence with itself (at a valid character-boundary
offset) is the identity on the phrase text and does not fault. -/
theorem splice_self_is_identity
    (p : IndexedPhraseContent) (t d : List Char)
    (ht : strTakeBytes p.phrase_content p.word_pos_in_phrase = some t)
    (hd : strDropBytes p.phrase_content p.word_pos_in_phrase = some d) :
    concatenate_indexed_phrases p p = some p.phrase_content := by
  have hglue := strTakeBytes_append_strDropBytes p.phrase_content
    p.word_pos_in_phrase t d ht hd
  unfold concatenate_indexed_phrases
  rw [hd]
  by_cases hswap : p.word_pos_in_phrase = 0 ∧ ¬ ' ' ∈ d
  · simp only [Option.bind_eq_bind, Option.some_bind, if_pos hswap]
    rw [ht, hd]
    simp [hglue]
  · simp only [Option.bind_eq_bind, Option.some_bind, if_neg hswap]
    rw [ht, hd]
    simp [hglue]

/-- C10 witness: the degenerate same-occurrence splice at a concrete input. -/
theorem splice_self_is_identity_witness :
    concatenate_indexed_phrases
        ⟨"hello there friend".toList, 12⟩ ⟨"hello there friend".toList, 12⟩
      = some "hello there friend".toList :=
  splice_self_is_identity ⟨"hello there friend".toList, 12⟩
    "hello there ".toList "friend".toList (by decide) (by decide)

/-! ## Claim C3: normalization of delimiter/punctuation/whitespace-only input -/

/-- All segments of a delimiter-only string are empty. -/
theorem splitAtDelims_all_delim :
    ∀ (text : List Char), (∀ c ∈ text, c = '.' ∨ c = ';') →
      ∀ seg ∈ splitAtDelims text, seg = [] := by
  intro text
  induction text with
  | nil =>
    intro _ seg hseg
    simp only [splitAtDelims, List.mem_singleton] at hseg
    exact hseg
  | cons c cs ih =>
    intro h seg hseg
    have hc : c = '.' ∨ c = ';' := h c (List.mem_cons_self c cs)
    simp only [splitAtDelims, if_pos hc, List.mem_cons] at hseg
    rcases hseg with rfl | hseg
    · rfl
    · exact ih (fun d hd => h d (List.mem_cons_of_mem c hd)) seg hseg

/-- C3 counterexample: the input `","` consists only of punctuation, yet
`normalize` returns a one-element sequence holding the empty phrase — the
empty-segment filter runs before punctuation is replaced by whitespace, so
the result is not the empty sequence. -/
theorem normalize_punctuation_only_counterexample :
    normalize_text_into_phrases ",".toList = [Phrase.mk []] ∧
    normalize_text_into_phrases ",".toList ≠ ([] : List Phrase) := by
  constructor <;> decide

/-- C3 amended: for every input string consisting only of sentence
delimiters (`.`, `;`), `normalize` returns the empty sequence of phrases.
(Inputs whose non-delimiter content is punctuation or whitespace instead
yield one empty phrase per non-empty delimiter segment.) -/
theorem normalize_delimiter_only_input_is_empty (text : List Char)
    (h : ∀ c ∈ text, c = '.' ∨ c = ';') :
    normalize_text_into_phrases text = [] := by
  have hsegs := splitAtDelims_all_delim text h
  have hfilter : split_text_at_periods text = [] := by
    unfold split_text_at_periods
    rw [List.filter_eq_nil_iff]
    intro seg hseg
    rw [hsegs seg hseg]
    decide
  unfold normalize_text_into_phrases
  rw [hfilter]
  rfl

/-- C3 amended witness: the delimiter-only input `".;."` normalizes to the
empty sequence. -/
theorem normalize_delimiter_only_input_is_empty_witness :
    normalize_text_into_phrases ".;.".toList = [] :=
  normalize_delimiter_only_input_is_empty ".;.".toList (by decide)

/-! ## Claims C2, C8: the two branches of `insert_phrase` -/

/-- C2 counterexample: inserting the multi-word phrase `"hello there"` twice
into a fresh index makes the second `insert_phrase` call report
`has_inserted_phrase = true`, not `false` as the claim states. -/
theorem reinsert_reports_true_counterexample :
    ((insert_phrase (insert_phrase emptyIndexedPhrases
          (Phrase.mk "hello there".toList)).2
        (Phrase.mk "hello there".toList)).1).has_inserted_phrase = true := by
  decide

/-- C2 amended: for every multi-word phrase (text containing a space),
re-inserting the identical text makes the second `insert_phrase` call report
`has_inserted_phrase = true` — the flag is `true` for every multi-word
insertion regardless of whether the phrase was already indexed. -/
theorem reinsert_multiword_reports_inserted (s : IndexedPhrases) (p : Phrase)
    (h : ' ' ∈ p.content) :
    ((insert_phrase (insert_phrase s p).2 p).1).has_inserted_phrase = true := by
  rw [insert_phrase]
  simp only [if_pos h]

/-- C2 amended witness. -/
theorem reinsert_multiword_reports_inserted_witness :
    ' ' ∈ "hello there".toList ∧
    ((insert_phrase (insert_phrase emptyIndexedPhrases
          (Phrase.mk "hello there".toList)).2
        (Phrase.mk "hello there".toList)).1).has_inserted_phrase = true :=
  ⟨by decide,
   reinsert_multiword_reports_inserted emptyIndexedPhrases
     (Phrase.mk "hello there".toList) (by decide)⟩

/-- Interning never touches the inverted index. -/
theorem intern_text_index_eq (s : IndexedPhrases) (t : List Char) :
    (intern_text s t).2.indexed_phrases_by_word = s.indexed_phrases_by_word := by
  unfold intern_text
  cases lookupText s.interned_texts t <;> rfl

/-- C8: for every phrase text containing no whitespace (a single word) and
every index state, `insert_phrase` interns only the word text (the resulting
state is exactly the state after `intern_text`), reports
`has_inserted_phrase = false`, returns that single word's id as the only
observed word, and leaves the inverted index completely unchanged. -/
theorem insert_single_word_frame (s : IndexedPhrases) (p : Phrase)
    (h : ∀ c ∈ p.content, rustIsWhitespace c = false) :
    insert_phrase s p =
      ({ has_inserted_phrase := false,
         word_indices_from_phrase := [(intern_text s p.content).1] },
       (intern_text s p.content).2) ∧
    ((insert_phrase s p).2).indexed_phrases_by_word = s.indexed_phrases_by_word := by
  have hnsp : ¬ ' ' ∈ p.content := by
    intro hm
    have := h ' ' hm
    simp [rustIsWhitespace] at this
  constructor
  · rw [insert_phrase]
    simp only [if_neg hnsp]
  · rw [insert_phrase]
    simp only [if_neg hnsp]
    exact intern_text_index_eq s p.content

/-- C8 witness: inserting the single word `"hello"` into a state that
already has an indexed phrase changes no index entry. -/
theorem insert_single_word_frame_witness :
    (∀ c ∈ "hello".toList, rustIsWhitespace c = false) ∧
    (insert_phrase (insert_phrase emptyIndexedPhrases
          (Phrase.mk "hi there".toList)).2 (Phrase.mk "hello".toList) =
        ({ has_inserted_phrase := false,
           word_indices_from_phrase :=
             [(intern_text (insert_phrase emptyIndexedPhrases
                 (Phrase.mk "hi there".toList)).2 "hello".toList).1] },
         (intern_text (insert_phrase emptyIndexedPhrases
             (Phrase.mk "hi there".toList)).2 "hello".toList).2) ∧
      ((insert_phrase (insert_phrase emptyIndexedPhrases
            (Phrase.mk "hi there".toList)).2
          (Phrase.mk "hello".toList)).2).indexed_phrases_by_word =
        ((insert_phrase emptyIndexedPhrases
            (Phrase.mk "hi there".toList)).2).indexed_phrases_by_word) :=
  ⟨by decide,
   insert_single_word_frame (insert_phrase emptyIndexedPhrases
       (Phrase.mk "hi there".toList)).2 (Phrase.mk "hello".toList) (by decide)⟩

/-! ## Claim C1: generation with an empty candidate pool -/

/-- C1: when the per-message word-id list is empty and `get_common_words`
is also empty, the generation routine does not signal a recoverable
empty-pool condition — it reaches `rng.gen_range(0..0)`, the empty-range
sampling panic, modelled by `none`. This holds for every entropy stream, so
the fault is unconditional on an empty pool. -/
theorem generate_phrase_empty_pool_faults (ip : IndexedPhrases) (rng : List Nat)
    (h : get_common_words ip = []) :
    generate_phrase ip [] rng = none := by
  unfold generate_phrase
  simp [h, genRange]

/-- C1 witness: generation on the freshly constructed empty index faults. -/
theorem generate_phrase_empty_pool_faults_witness :
    get_common_words emptyIndexedPhrases = [] ∧
    generate_phrase emptyIndexedPhrases [] [0, 1, 2] = none :=
  ⟨by decide, generate_phrase_empty_pool_faults emptyIndexedPhrases [0, 1, 2] (by decide)⟩

/-! ## Lemmas about interning, linking and the insertion loop -/

/-- A successful interning-table lookup means the pair is stored. -/
theorem lookupText_mem :
    ∀ (m : List (List Char × Nat)) (t : List Char) (i : Nat),
      lookupText m t = some i → (t, i) ∈ m := by
  intro m t i
  induction m with
  | nil => intro h; cases h
  | cons p rest ih =>
    intro h
    simp only [lookupText] at h
    by_cases hp : p.1 = t
    · rw [if_pos hp] at h
      injection h with h
      have hpe : p = (t, i) := by
        obtain ⟨a, b⟩ := p
        simp only at hp h
        rw [hp, h]
      rw [← hpe]
      exact List.mem_cons_self p rest
    · rw [if_neg hp] at h
      exact List.mem_cons_of_mem p (ih h)

/-- Interning an already-interned text returns its id and leaves the state
unchanged (`entry(..).or_insert_with` with a present key). -/
theorem intern_text_of_lookup_some (s : IndexedPhrases) (t : List Char) (i : Nat)
    (h : lookupText s.interned_texts t = some i) :
    intern_text s t = (i, s) := by
  unfold intern_text
  rw [h]

/-- After interning a text, looking it up yields the returned id. -/
theorem intern_text_lookup_self (s : IndexedPhrases) (t : List Char) :
    lookupText (intern_text s t).2.interned_texts t = some (intern_text s t).1 := by
  unfold intern_text
  cases h : lookupText s.interned_texts t with
  | some i => simpa using h
  | none => simp [lookupText]

/-- Interning preserves every existing interning-table binding. -/
theorem intern_text_lookup_mono (s : IndexedPhrases) (t u : List Char) (j : Nat)
    (h : lookupText s.interned_texts u = some j) :
    lookupText (intern_text s t).2.interned_texts u = some j := by
  unfold intern_text
  cases hl : lookupText s.interned_texts t with
  | some i => simpa using h
  | none =>
    have hne : t ≠ u := by
      rintro rfl
      rw [hl] at h
      cases h
    simp only [lookupText]
    rw [if_neg hne]
    exact h

/-- `setEntry` stores the new value at the given key. -/
theorem lookupIndex_setEntry_self :
    ∀ (m : List (Nat × List IndexedPhrase)) (w : Nat) (v : List IndexedPhrase),
      lookupIndex (setEntry m w v) w = some v := by
  intro m w v
  induction m with
  | nil => simp [setEntry, lookupIndex]
  | cons e rest ih =>
    by_cases he : e.1 = w
    · simp [setEntry, he, lookupIndex]
    · simp [setEntry, he, lookupIndex, ih]

/-- `setEntry` leaves every other key's value unchanged. -/
theorem lookupIndex_setEntry_other :
    ∀ (m : List (Nat × List IndexedPhrase)) (w w' : Nat) (v : List IndexedPhrase),
      w' ≠ w → lookupIndex (setEntry m w v) w' = lookupIndex m w' := by
  intro m w w' v h
  induction m with
  | nil =>
    simp only [setEntry, lookupIndex]
    rw [if_neg (fun hc => h hc.symm)]
  | cons e rest ih =>
    by_cases he : e.1 = w
    · simp only [setEntry, if_pos he, lookupIndex]
      rw [if_neg (fun hc => h hc.symm), if_neg (fun hc => h (he.symm.trans hc).symm)]
    · simp only [setEntry, if_neg he, lookupIndex]
      by_cases he' : e.1 = w'
      · rw [if_pos he', if_pos he']
      · rw [if_neg he', if_neg he']
        exact ih

/-- `setEntry` only produces the new entry or entries of the original map. -/
theorem mem_setEntry :
    ∀ (m : List (Nat × List IndexedPhrase)) (w : Nat) (v : List IndexedPhrase)
      (e : Nat × List IndexedPhrase),
      e ∈ setEntry m w v → e = (w, v) ∨ e ∈ m := by
  intro m w v
  induction m with
  | nil =>
    intro e he
    simp only [setEntry, List.mem_singleton] at he
    exact Or.inl he
  | cons f rest ih =>
    intro e he
    by_cases hf : f.1 = w
    · simp only [setEntry, if_pos hf, List.mem_cons] at he
      rcases he with rfl | he
      · exact Or.inl rfl
      · exact Or.inr (List.mem_cons_of_mem f he)
    · simp only [setEntry, if_neg hf, List.mem_cons] at he
      rcases he with rfl | he
      · exact Or.inr (List.mem_cons_self e rest)
      · rcases ih e he with h1 | h2
        · exact Or.inl h1
        · exact Or.inr (List.mem_cons_of_mem f h2)

/-- A successful inverted-index lookup means the entry is stored. -/
theorem lookupIndex_mem :
    ∀ (m : List (Nat × List IndexedPhrase)) (w : Nat) (v : List IndexedPhrase),
      lookupIndex m w = some v → (w, v) ∈ m := by
  intro m w v
  induction m with
  | nil => intro h; cases h
  | cons e rest ih =>
    intro h
    simp only [lookupIndex] at h
    by_cases he : e.1 = w
    · rw [if_pos he] at h
      injection h with h
      have hpe : e = (w, v) := by
        obtain ⟨a, b⟩ := e
        simp only at he h
        rw [he, h]
      rw [← hpe]
      exact List.mem_cons_self e rest
    · rw [if_neg he] at h
      exact List.mem_cons_of_mem e (ih h)

/-- Linking never touches the interning table. -/
theorem link_interned_texts_eq (s : IndexedPhrases) (pid wid pos : Nat) :
    (link_phrase_to_word s pid wid pos).interned_texts = s.interned_texts := by
  simp only [link_phrase_to_word]
  split <;> rfl

/-- Linking never touches the id-to-text vector. -/
theorem link_indexed_texts_eq (s : IndexedPhrases) (pid wid pos : Nat) :
    (link_phrase_to_word s pid wid pos).indexed_texts = s.indexed_texts := by
  simp only [link_phrase_to_word]
  split <;> rfl

/-- Interning never changes the stored occurrence sets. -/
theorem occsOf_intern_eq (s : IndexedPhrases) (t : List Char) (w : Nat) :
    occsOf (intern_text s t).2 w = occsOf s w := by
  unfold occsOf
  rw [intern_text_index_eq]

/-- The linked occurrence is stored after `link_phrase_to_word`. -/
theorem occsOf_link_self (s : IndexedPhrases) (pid wid pos : Nat) :
    IndexedPhrase.mk pid pos ∈ occsOf (link_phrase_to_word s pid wid pos) wid := by
  unfold link_phrase_to_word
  by_cases h : IndexedPhrase.mk pid pos ∈ occsOf s wid
  · rw [if_pos h]
    exact h
  · rw [if_neg h]
    unfold occsOf
    simp only
    rw [lookupIndex_setEntry_self]
    exact List.mem_cons_self _ _

/-- Linking preserves every stored occurrence. -/
theorem occsOf_link_mono (s : IndexedPhrases) (pid wid pos w : Nat)
    (occ : IndexedPhrase) (h : occ ∈ occsOf s w) :
    occ ∈ occsOf (link_phrase_to_word s pid wid pos) w := by
  unfold link_phrase_to_word
  by_cases hm : IndexedPhrase.mk pid pos ∈ occsOf s wid
  · rw [if_pos hm]
    exact h
  · rw [if_neg hm]
    by_cases hw : w = wid
    · subst hw
      unfold occsOf at h ⊢
      simp only
      rw [lookupIndex_setEntry_self]
      exact List.mem_cons_of_mem _ h
    · unfold occsOf at h ⊢
      simp only
      rw [lookupIndex_setEntry_other _ _ _ _ hw]
      exact h

/-- Linking an occurrence that is already stored is a no-op (`HashSet`
insert of a present element). -/
theorem link_of_mem (s : IndexedPhrases) (pid wid pos : Nat)
    (h : IndexedPhrase.mk pid pos ∈ occsOf s wid) :
    link_phrase_to_word s pid wid pos = s := by
  unfold link_phrase_to_word
  rw [if_pos h]

/-- One-step unfolding of the insertion loop. -/
theorem insertWordsLoop_cons (s : IndexedPhrases) (pid pos : Nat)
    (w : List Char) (rest : List (List Char)) :
    insertWordsLoop s pid pos (w :: rest) =
      ((intern_text s w).1 ::
        (insertWordsLoop
          (link_phrase_to_word (intern_text s w).2 pid (intern_text s w).1 pos)
          pid (pos + byteLen w + 1) rest).1,
       (insertWordsLoop
          (link_phrase_to_word (intern_text s w).2 pid (intern_text s w).1 pos)
          pid (pos + byteLen w + 1) rest).2) := rfl

/-- The insertion loop preserves every interning-table binding. -/
theorem insertWordsLoop_lookup_mono :
    ∀ (ws : List (List Char)) (s : IndexedPhrases) (pid pos : Nat)
      (u : List Char) (j : Nat),
      lookupText s.interned_texts u = some j →
      lookupText (insertWordsLoop s pid pos ws).2.interned_texts u = some j := by
  intro ws
  induction ws with
  | nil =>
    intro s pid pos u j h
    exact h
  | cons w rest ih =>
    intro s pid pos u j h
    rw [insertWordsLoop_cons]
    apply ih
    rw [link_interned_texts_eq]
    exact intern_text_lookup_mono s w u j h

/-- The insertion loop preserves every stored occurrence. -/
theorem insertWordsLoop_occ_mono :
    ∀ (ws : List (List Char)) (s : IndexedPhrases) (pid pos w : Nat)
      (occ : IndexedPhrase),
      occ ∈ occsOf s w → occ ∈ occsOf (insertWordsLoop s pid pos ws).2 w := by
  intro ws
  induction ws with
  | nil =>
    intro s pid pos w occ h
    exact h
  | cons wd rest ih =>
    intro s pid pos w occ h
    rw [insertWordsLoop_cons]
    apply ih
    apply occsOf_link_mono
    rw [occsOf_intern_eq]
    exact h

/-- The insertion loop records, for the `i`-th word of its word list, an
occurrence of the phrase id at the running byte offset computed by
`wordOffsets`, keyed by the id the word's text is interned at. -/
theorem insertWordsLoop_records :
    ∀ (ws : List (List Char)) (s : IndexedPhrases) (pid pos i : Nat),
      i < ws.length →
      ∃ wid,
        lookupText (insertWordsLoop s pid pos ws).2.interned_texts
            (ws.getD i []) = some wid ∧
        IndexedPhrase.mk pid ((wordOffsets ws pos).getD i 0) ∈
          occsOf (insertWordsLoop s pid pos ws).2 wid := by
  intro ws
  induction ws with
  | nil =>
    intro s pid pos i hi
    exact absurd hi (by simp)
  | cons w rest ih =>
    intro s pid pos i hi
    cases i with
    | zero =>
      refine ⟨(intern_text s w).1, ?_, ?_⟩
      · rw [insertWordsLoop_cons]
        simp only [List.getD_cons_zero]
        apply insertWordsLoop_lookup_mono
        rw [link_interned_texts_eq]
        exact intern_text_lookup_self s w
      · rw [insertWordsLoop_cons]
        simp only [wordOffsets, List.getD_cons_zero]
        apply insertWordsLoop_occ_mono
        exact occsOf_link_self (intern_text s w).2 pid (intern_text s w).1 pos
    | succ n =>
      have hn : n < rest.length := by simpa using hi
      obtain ⟨wid, h1, h2⟩ := ih
        (link_phrase_to_word (intern_text s w).2 pid (intern_text s w).1 pos)
        pid (pos + byteLen w + 1) n hn
      refine ⟨wid, ?_, ?_⟩
      · rw [insertWordsLoop_cons]
        simp only [List.getD_cons_succ]
        exact h1
      · rw [insertWordsLoop_cons]
        simp only [wordOffsets, List.getD_cons_succ]
        exact h2

/-! ## Claim C7: recorded word offsets -/

/-- C7: for every multi-word phrase (text containing a space) and every
index state, `insert_phrase` records, for the `i`-th word of the phrase, an
occurrence of the interned phrase id at the byte offset given by the
recurrence: the first word at offset 0, each subsequent word at the previous
word's offset plus that word's byte length plus one (for the separating
space), keyed by the id the word's text is interned at. -/
theorem insert_phrase_records_word_offsets (s : IndexedPhrases) (p : Phrase)
    (hsp : ' ' ∈ p.content) (i : Nat)
    (hi : i < (splitAsciiWhitespace p.content).length) :
    ∃ pid wid,
      lookupText ((insert_phrase s p).2).interned_texts p.content = some pid ∧
      lookupText ((insert_phrase s p).2).interned_texts
          ((splitAsciiWhitespace p.content).getD i []) = some wid ∧
      IndexedPhrase.mk pid
          ((wordOffsets (splitAsciiWhitespace p.content) 0).getD i 0) ∈
        occsOf ((insert_phrase s p).2) wid := by
  have hstate : (insert_phrase s p).2 =
      (insertWordsLoop (intern_text s p.content).2 (intern_text s p.content).1 0
        (splitAsciiWhitespace p.content)).2 := by
    rw [insert_phrase]
    simp only [if_pos hsp]
  obtain ⟨wid, h1, h2⟩ := insertWordsLoop_records (splitAsciiWhitespace p.content)
    (intern_text s p.content).2 (intern_text s p.content).1 0 i hi
  refine ⟨(intern_text s p.content).1, wid, ?_, ?_, ?_⟩
  · rw [hstate]
    apply insertWordsLoop_lookup_mono
    exact intern_text_lookup_self s p.content
  · rw [hstate]
    exact h1
  · rw [hstate]
    exact h2

/-- C7 witness: inserting `"hello there friend"` into the fresh index
records the occurrence for the third word, `"friend"`, at byte offset 12. -/
theorem insert_phrase_records_word_offsets_witness :
    ' ' ∈ "hello there friend".toList ∧
    2 < (splitAsciiWhitespace "hello there friend".toList).length ∧
    (splitAsciiWhitespace "hello there friend".toList).getD 2 [] = "friend".toList ∧
    (wordOffsets (splitAsciiWhitespace "hello there friend".toList) 0).getD 2 0 = 12 ∧
    (∃ pid wid,
      lookupText ((insert_phrase emptyIndexedPhrases
          (Phrase.mk "hello there friend".toList)).2).interned_texts
        "hello there friend".toList = some pid ∧
      lookupText ((insert_phrase emptyIndexedPhrases
          (Phrase.mk "hello there friend".toList)).2).interned_texts
        ((splitAsciiWhitespace "hello there friend".toList).getD 2 []) = some wid ∧
      IndexedPhrase.mk pid
          ((wordOffsets (splitAsciiWhitespace "hello there friend".toList) 0).getD 2 0) ∈
        occsOf ((insert_phrase emptyIndexedPhrases
          (Phrase.mk "hello there friend".toList)).2) wid) :=
  ⟨by decide, by decide, by decide, by decide,
   insert_phrase_records_word_offsets emptyIndexedPhrases
     (Phrase.mk "hello there friend".toList) (by decide) 2 (by decide)⟩

/-! ## Claim C6: idempotence of re-insertion -/

/-- Running the insertion loop a second time from the state it produced
returns the same word ids and leaves the state untouched: every word is
already interned at the same id and every occurrence is already stored. -/
theorem insertWordsLoop_idem :
    ∀ (ws : List (List Char)) (s : IndexedPhrases) (pid pos : Nat),
      insertWordsLoop (insertWordsLoop s pid pos ws).2 pid pos ws =
        insertWordsLoop s pid pos ws := by
  intro ws
  induction ws with
  | nil =>
    intro s pid pos
    rfl
  | cons w rest ih =>
    intro s pid pos
    have hlk : lookupText
        (insertWordsLoop
          (link_phrase_to_word (intern_text s w).2 pid (intern_text s w).1 pos)
          pid (pos + byteLen w + 1) rest).2.interned_texts w =
        some (intern_text s w).1 := by
      apply insertWordsLoop_lookup_mono
      rw [link_interned_texts_eq]
      exact intern_text_lookup_self s w
    have hmem : IndexedPhrase.mk pid pos ∈
        occsOf (insertWordsLoop
          (link_phrase_to_word (intern_text s w).2 pid (intern_text s w).1 pos)
          pid (pos + byteLen w + 1) rest).2 (intern_text s w).1 := by
      apply insertWordsLoop_occ_mono
      exact occsOf_link_self (intern_text s w).2 pid (intern_text s w).1 pos
    conv_lhs => rw [insertWordsLoop_cons s pid pos w rest]
    rw [insertWordsLoop_cons]
    rw [intern_text_of_lookup_some _ _ _ hlk]
    rw [link_of_mem _ _ _ _ hmem]
    rw [ih (link_phrase_to_word (intern_text s w).2 pid (intern_text s w).1 pos)
      pid (pos + byteLen w + 1)]
    rw [insertWordsLoop_cons s pid pos w rest]

/-- Re-inserting an identical multi-word phrase returns the identical
result and leaves the whole state unchanged. -/
theorem insert_phrase_idem (s : IndexedPhrases) (p : Phrase)
    (h : ' ' ∈ p.content) :
    insert_phrase (insert_phrase s p).2 p = insert_phrase s p := by
  have e1 : insert_phrase s p =
      ({ has_inserted_phrase := true,
         word_indices_from_phrase :=
           (insertWordsLoop (intern_text s p.content).2 (intern_text s p.content).1 0
             (splitAsciiWhitespace p.content)).1 },
       (insertWordsLoop (intern_text s p.content).2 (intern_text s p.content).1 0
         (splitAsciiWhitespace p.content)).2) := by
    rw [insert_phrase]
    simp only [if_pos h]
  have hlk : lookupText
      (insertWordsLoop (intern_text s p.content).2 (intern_text s p.content).1 0
        (splitAsciiWhitespace p.content)).2.interned_texts p.content =
      some (intern_text s p.content).1 := by
    apply insertWordsLoop_lookup_mono
    exact intern_text_lookup_self s p.content
  rw [e1]
  rw [insert_phrase]
  simp only [if_pos h]
  rw [intern_text_of_lookup_some _ _ _ hlk]
  rw [insertWordsLoop_idem (splitAsciiWhitespace p.content)
    (intern_text s p.content).2 (intern_text s p.content).1 0]

/-- The stored occurrence list of any key of a `NodupOccs` state is
duplicate-free. -/
theorem nodupOccs_occsOf (s : IndexedPhrases) (h : NodupOccs s) (w : Nat) :
    (occsOf s w).Nodup := by
  unfold occsOf
  cases hl : lookupIndex s.indexed_phrases_by_word w with
  | none => simp
  | some v =>
    simp only [Option.getD_some]
    exact h (w, v) (lookupIndex_mem _ _ _ hl)

theorem nodupOccs_intern (s : IndexedPhrases) (t : List Char)
    (h : NodupOccs s) : NodupOccs (intern_text s t).2 := by
  unfold NodupOccs
  rw [intern_text_index_eq]
  exact h

theorem nodupOccs_link (s : IndexedPhrases) (pid wid pos : Nat)
    (h : NodupOccs s) : NodupOccs (link_phrase_to_word s pid wid pos) := by
  unfold link_phrase_to_word
  by_cases hm : IndexedPhrase.mk pid pos ∈ occsOf s wid
  · rw [if_pos hm]
    exact h
  · rw [if_neg hm]
    intro e he
    simp only at he
    rcases mem_setEntry _ _ _ _ he with rfl | he'
    · simp only
      exact List.nodup_cons.mpr ⟨hm, nodupOccs_occsOf s h wid⟩
    · exact h e he'

theorem nodupOccs_insertWordsLoop :
    ∀ (ws : List (List Char)) (s : IndexedPhrases) (pid pos : Nat),
      NodupOccs s → NodupOccs (insertWordsLoop s pid pos ws).2 := by
  intro ws
  induction ws with
  | nil =>
    intro s pid pos h
    exact h
  | cons w rest ih =>
    intro s pid pos h
    rw [insertWordsLoop_cons]
    exact ih _ pid _ (nodupOccs_link _ pid _ pos (nodupOccs_intern s w h))

theorem nodupOccs_insert_phrase (s : IndexedPhrases) (p : Phrase)
    (h : NodupOccs s) : NodupOccs (insert_phrase s p).2 := by
  rw [insert_phrase]
  by_cases hsp : ' ' ∈ p.content
  · simp only [if_pos hsp]
    exact nodupOccs_insertWordsLoop _ _ _ 0 (nodupOccs_intern s p.content h)
  · simp only [if_neg hsp]
    exact nodupOccs_intern s p.content h

/-- C6: re-inserting an identical multi-word phrase leaves the inverted
index exactly as after the first insertion (word for word, occurrence for
occurrence), and — `HashSet` semantics — a given (phrase-id, offset) pair is
stored at most once under each word id, so re-insertion is a no-op on the
index's shape. -/
theorem reinsert_multiword_index_noop (s : IndexedPhrases) (p : Phrase)
    (h : ' ' ∈ p.content) :
    ((insert_phrase (insert_phrase s p).2 p).2).indexed_phrases_by_word =
      ((insert_phrase s p).2).indexed_phrases_by_word ∧
    (NodupOccs s →
      ∀ e ∈ ((insert_phrase (insert_phrase s p).2 p).2).indexed_phrases_by_word,
        e.2.Nodup) := by
  constructor
  · rw [insert_phrase_idem s p h]
  · intro hn
    rw [insert_phrase_idem s p h]
    exact nodupOccs_insert_phrase s p hn

/-- C6 witness: re-inserting `"hello there"` into the fresh index. -/
theorem reinsert_multiword_index_noop_witness :
    ' ' ∈ "hello there".toList ∧
    (((insert_phrase (insert_phrase emptyIndexedPhrases
          (Phrase.mk "hello there".toList)).2
        (Phrase.mk "hello there".toList)).2).indexed_phrases_by_word =
      ((insert_phrase emptyIndexedPhrases
          (Phrase.mk "hello there".toList)).2).indexed_phrases_by_word ∧
    (NodupOccs emptyIndexedPhrases →
      ∀ e ∈ ((insert_phrase (insert_phrase emptyIndexedPhrases
            (Phrase.mk "hello there".toList)).2
          (Phrase.mk "hello there".toList)).2).indexed_phrases_by_word,
        e.2.Nodup)) :=
  ⟨by decide,
   reinsert_multiword_index_noop emptyIndexedPhrases
     (Phrase.mk "hello there".toList) (by decide)⟩

/-! ## Claim C9: lookup for a word that is a key of the inverted index -/

/-- With duplicate-free keys, looking up the key of a stored entry returns
that entry's value. -/
theorem lookupIndex_of_mem_nodup_keys :
    ∀ (m : List (Nat × List IndexedPhrase)),
      (m.map Prod.fst).Nodup →
      ∀ e ∈ m, lookupIndex m e.1 = some e.2 := by
  intro m
  induction m with
  | nil =>
    intro _ e he
    cases he
  | cons f rest ih =>
    intro hnd e he
    rw [List.map_cons, List.nodup_cons] at hnd
    rcases List.mem_cons.mp he with rfl | he'
    · simp [lookupIndex]
    · have hf : f.1 ≠ e.1 := by
        intro hfe
        exact hnd.1 (hfe ▸ List.mem_map_of_mem Prod.fst he')
      simp only [lookupIndex]
      rw [if_neg hf]
      exact ih hnd.2 e he'

/-- C9: for every well-formed index state and every word obtained from
`get_common_words` (i.e. a key of the inverted index), the lookup
`get_phrases_with_word_in_common` does not fault — both of its internal
`unwrap`s succeed — and it returns exactly the stored occurrence set for
that word, viewed as (phrase text, offset) pairs and deduplicated by
(phrase, offset). A word whose text is not even interned faults (`none`),
which models the contract-violation panic, not a branchable value. -/
theorem phrases_containing_common_word_ok (s : IndexedPhrases) (w : Word)
    (hwf : WF s) (hw : w ∈ get_common_words s) :
    ∃ wid occs,
      lookupText s.interned_texts w.text = some wid ∧
      lookupIndex s.indexed_phrases_by_word wid = some occs ∧
      get_phrases_with_word_in_common s w =
        some (occs.map (fun ip =>
          IndexedPhraseContent.mk
            (s.indexed_texts.getD ip.interned_phrase_index [])
            ip.word_pos_in_phrase)) ∧
      (occs.map (fun ip =>
        IndexedPhraseContent.mk
          (s.indexed_texts.getD ip.interned_phrase_index [])
          ip.word_pos_in_phrase)).Nodup := by
  obtain ⟨hinterned, hresolve, hindex, hkeys⟩ := hwf
  unfold get_common_words at hw
  rw [List.mem_map] at hw
  obtain ⟨e, he, hwe⟩ := hw
  have hbound : e.1 < s.indexed_texts.length := (hindex e he).1
  have htext : w.text = s.indexed_texts.getD e.1 [] := by
    rw [← hwe]
  have hlt : lookupText s.interned_texts w.text = some e.1 := by
    rw [htext]
    exact hresolve e.1 hbound
  have hli : lookupIndex s.indexed_phrases_by_word e.1 = some e.2 :=
    lookupIndex_of_mem_nodup_keys _ hkeys e he
  refine ⟨e.1, e.2, hlt, hli, ?_, ?_⟩
  · simp only [get_phrases_with_word_in_common, hlt, hli]
  · apply List.Nodup.map_on ?_ (hindex e he).2.1
    intro x hx y hy hxy
    have hxb : x.interned_phrase_index < s.indexed_texts.length :=
      (hindex e he).2.2 x hx
    have hyb : y.interned_phrase_index < s.indexed_texts.length :=
      (hindex e he).2.2 y hy
    have h1 : s.indexed_texts.getD x.interned_phrase_index [] =
        s.indexed_texts.getD y.interned_phrase_index [] :=
      congrArg IndexedPhraseContent.phrase_content hxy
    have h2 : x.word_pos_in_phrase = y.word_pos_in_phrase :=
      congrArg IndexedPhraseContent.word_pos_in_phrase hxy
    have heq : some x.interned_phrase_index = some y.interned_phrase_index := by
      rw [← hresolve _ hxb, ← hresolve _ hyb, h1]
    injection heq with heq
    obtain ⟨xp, xo⟩ := x
    obtain ⟨yp, yo⟩ := y
    simp only at heq h2
    rw [heq, h2]

/-- C9 witness: in the index holding `"hello there"`, the common word
`"hello"` satisfies the precondition and its lookup succeeds. -/
theorem phrases_containing_common_word_ok_witness :
    WF (insert_phrase emptyIndexedPhrases (Phrase.mk "hello there".toList)).2 ∧
    Word.mk "hello".toList ∈
      get_common_words
        (insert_phrase emptyIndexedPhrases (Phrase.mk "hello there".toList)).2 ∧
    (∃ wid occs,
      lookupText (insert_phrase emptyIndexedPhrases
          (Phrase.mk "hello there".toList)).2.interned_texts
        "hello".toList = some wid ∧
      lookupIndex (insert_phrase emptyIndexedPhrases
          (Phrase.mk "hello there".toList)).2.indexed_phrases_by_word wid =
        some occs ∧
      get_phrases_with_word_in_common
          (insert_phrase emptyIndexedPhrases (Phrase.mk "hello there".toList)).2
          (Word.mk "hello".toList) =
        some (occs.map (fun ip =>
          IndexedPhraseContent.mk
            ((insert_phrase emptyIndexedPhrases
                (Phrase.mk "hello there".toList)).2.indexed_texts.getD
              ip.interned_phrase_index [])
            ip.word_pos_in_phrase)) ∧
      (occs.map (fun ip =>
        IndexedPhraseContent.mk
          ((insert_phrase emptyIndexedPhrases
              (Phrase.mk "hello there".toList)).2.indexed_texts.getD
            ip.interned_phrase_index [])
          ip.word_pos_in_phrase)).Nodup) :=
  ⟨by decide, by decide,
   phrases_containing_common_word_ok
     (insert_phrase emptyIndexedPhrases (Phrase.mk "hello there".toList)).2
     (Word.mk "hello".toList) (by decide) (by decide)⟩

/-! ## Well-formedness is an invariant of the index

`WF` holds of `IndexedPhrases::new()` and is preserved by `insert_phrase`,
so every reachable state satisfies the hypothesis of the lookup theorem for
common words. -/

theorem getD_append_left (l l' : List (List Char)) (i : Nat)
    (h : i < l.length) : (l ++ l').getD i [] = l.getD i [] := by
  induction l generalizing i with
  | nil => cases h
  | cons a t ih =>
    cases i with
    | zero => rfl
    | succ n =>
      simp only [List.cons_append, List.getD_cons_succ]
      exact ih n (by simpa using h)

theorem getD_append_self (l : List (List Char)) (a : List Char) :
    (l ++ [a]).getD l.length [] = a := by
  induction l with
  | nil => rfl
  | cons b t ih => simp [ih]

theorem wf_empty : WF emptyIndexedPhrases := by
  decide

/-- Interning preserves well-formedness; the returned id is in bounds and
the id-to-text vector only grows. -/
theorem intern_text_wf (s : IndexedPhrases) (t : List Char) (h : WF s) :
    WF (intern_text s t).2 ∧
    (intern_text s t).1 < (intern_text s t).2.indexed_texts.length ∧
    s.indexed_texts.length ≤ (intern_text s t).2.indexed_texts.length := by
  obtain ⟨h1, h2, h3, h4⟩ := h
  cases hl : lookupText s.interned_texts t with
  | some i =>
    rw [intern_text_of_lookup_some s t i hl]
    exact ⟨⟨h1, h2, h3, h4⟩, (h1 (t, i) (lookupText_mem _ _ _ hl)).1, le_refl _⟩
  | none =>
    have heq : intern_text s t =
        (s.indexed_texts.length,
         { s with
             interned_texts := (t, s.indexed_texts.length) :: s.interned_texts,
             indexed_texts := s.indexed_texts ++ [t] }) := by
      unfold intern_text
      rw [hl]
    rw [heq]
    refine ⟨⟨?_, ?_, ?_, ?_⟩, ?_, ?_⟩
    · intro p hp
      simp only at hp ⊢
      rcases List.mem_cons.mp hp with rfl | hp'
      · refine ⟨by simp, ?_⟩
        exact getD_append_self s.indexed_texts t
      · obtain ⟨hb, hg⟩ := h1 p hp'
        refine ⟨?_, ?_⟩
        · simp only [List.length_append, List.length_singleton]
          omega
        · rw [getD_append_left _ _ _ hb]
          exact hg
    · intro i hi
      simp only [List.length_append, List.length_singleton] at hi
      simp only
      by_cases hlt : i < s.indexed_texts.length
      · rw [getD_append_left _ _ _ hlt]
        simp only [lookupText]
        have hne : t ≠ s.indexed_texts.getD i [] := by
          intro hte
          have := h2 i hlt
          rw [← hte] at this
          rw [hl] at this
          cases this
        rw [if_neg hne]
        exact h2 i hlt
      · have hieq : i = s.indexed_texts.length := by omega
        subst hieq
        rw [getD_append_self]
        simp [lookupText]
    · intro e he
      simp only at he ⊢
      obtain ⟨hb, hn, ho⟩ := h3 e he
      refine ⟨?_, hn, ?_⟩
      · simp only [List.length_append, List.length_singleton]
        omega
      · intro occ hocc
        have := ho occ hocc
        simp only [List.length_append, List.length_singleton]
        omega
    · exact h4
    · simp
    · simp

/-- Every stored phrase id of an occurrence reachable through `occsOf` is
in bounds. -/
theorem occsOf_pid_bound (s : IndexedPhrases)
    (h3 : ∀ e ∈ s.indexed_phrases_by_word,
      e.1 < s.indexed_texts.length ∧ e.2.Nodup ∧
      ∀ occ ∈ e.2, occ.interned_phrase_index < s.indexed_texts.length)
    (w : Nat) (occ : IndexedPhrase) (hocc : occ ∈ occsOf s w) :
    occ.interned_phrase_index < s.indexed_texts.length := by
  unfold occsOf at hocc
  cases hl : lookupIndex s.indexed_phrases_by_word w with
  | none =>
    rw [hl] at hocc
    cases hocc
  | some v =>
    rw [hl] at hocc
    simp only [Option.getD_some] at hocc
    exact (h3 (w, v) (lookupIndex_mem _ _ _ hl)).2.2 occ hocc

/-- The keys of `setEntry` are the original keys, extended by the new key
when it was absent. -/
theorem map_fst_setEntry :
    ∀ (m : List (Nat × List IndexedPhrase)) (w : Nat) (v : List IndexedPhrase),
      (setEntry m w v).map Prod.fst =
        if w ∈ m.map Prod.fst then m.map Prod.fst
        else m.map Prod.fst ++ [w] := by
  intro m w v
  induction m with
  | nil => simp [setEntry]
  | cons e rest ih =>
    by_cases he : e.1 = w
    · simp [setEntry, he]
    · simp only [setEntry, if_neg he, List.map_cons, ih]
      by_cases hw : w ∈ List.map Prod.fst rest
      · rw [if_pos hw, if_pos (List.mem_cons_of_mem _ hw)]
      · rw [if_neg hw,
          if_neg (fun hc => (List.mem_cons.mp hc).elim (fun h' => he h'.symm) hw)]
        simp

/-- Linking with in-bounds phrase and word ids preserves well-formedness. -/
theorem link_wf (s : IndexedPhrases) (pid wid pos : Nat) (h : WF s)
    (hw : wid < s.indexed_texts.length) (hp : pid < s.indexed_texts.length) :
    WF (link_phrase_to_word s pid wid pos) := by
  obtain ⟨h1, h2, h3, h4⟩ := h
  unfold link_phrase_to_word
  by_cases hm : IndexedPhrase.mk pid pos ∈ occsOf s wid
  · rw [if_pos hm]
    exact ⟨h1, h2, h3, h4⟩
  · rw [if_neg hm]
    refine ⟨h1, h2, ?_, ?_⟩
    · intro e he
      simp only at he ⊢
      rcases mem_setEntry _ _ _ _ he with rfl | he'
      · refine ⟨hw, ?_, ?_⟩
        · exact List.nodup_cons.mpr
            ⟨hm, nodupOccs_occsOf s (fun e' he' => (h3 e' he').2.1) wid⟩
        · intro occ hocc
          rcases List.mem_cons.mp hocc with rfl | hocc'
          · exact hp
          · exact occsOf_pid_bound s h3 wid occ hocc'
      · exact h3 e he'
    · simp only
      rw [map_fst_setEntry]
      by_cases hw' : wid ∈ s.indexed_phrases_by_word.map Prod.fst
      · rw [if_pos hw']
        exact h4
      · rw [if_neg hw']
        simp [List.nodup_append, h4, hw']

/-- The insertion loop, started with an in-bounds phrase id, preserves
well-formedness, and the id-to-text vector only grows. -/
theorem insertWordsLoop_wf :
    ∀ (ws : List (List Char)) (s : IndexedPhrases) (pid pos : Nat),
      WF s → pid < s.indexed_texts.length →
      WF (insertWordsLoop s pid pos ws).2 ∧
      s.indexed_texts.length ≤
        (insertWordsLoop s pid pos ws).2.indexed_texts.length := by
  intro ws
  induction ws with
  | nil =>
    intro s pid pos h hp
    exact ⟨h, le_refl _⟩
  | cons w rest ih =>
    intro s pid pos h hp
    obtain ⟨hwf1, hwid, hlen1⟩ := intern_text_wf s w h
    have hp1 : pid < (intern_text s w).2.indexed_texts.length :=
      lt_of_lt_of_le hp hlen1
    have hwf2 : WF (link_phrase_to_word (intern_text s w).2 pid
        (intern_text s w).1 pos) := link_wf _ pid _ pos hwf1 hwid hp1
    have hlen2 := link_indexed_texts_eq (intern_text s w).2 pid
      (intern_text s w).1 pos
    obtain ⟨hwf3, hlen3⟩ := ih
      (link_phrase_to_word (intern_text s w).2 pid (intern_text s w).1 pos)
      pid (pos + byteLen w + 1) hwf2 (by rw [hlen2]; exact hp1)
    rw [insertWordsLoop_cons]
    refine ⟨hwf3, ?_⟩
    calc s.indexed_texts.length
        ≤ (intern_text s w).2.indexed_texts.length := hlen1
      _ = (link_phrase_to_word (intern_text s w).2 pid
            (intern_text s w).1 pos).indexed_texts.length := by rw [hlen2]
      _ ≤ _ := hlen3

/-- `insert_phrase` preserves well-formedness: every state reachable from
`IndexedPhrases::new()` by insertions is well-formed. -/
theorem insert_phrase_wf (s : IndexedPhrases) (p : Phrase) (h : WF s) :
    WF (insert_phrase s p).2 := by
  rw [insert_phrase]
  by_cases hsp : ' ' ∈ p.content
  · simp only [if_pos hsp]
    exact (insertWordsLoop_wf (splitAsciiWhitespace p.content)
      (intern_text s p.content).2 (intern_text s p.content).1 0
      (intern_text_wf s p.content h).1 (intern_text_wf s p.content h).2.1).1
  · simp only [if_neg hsp]
    exact (intern_text_wf s p.content h).1
